import Mathlib

/-!
Verification of the bruno-mcp-server collection engine.

This file shallowly embeds the parts of the source that the verified
properties are about:

* `discoverCollections` / the inner `searchDirectory` loop of
  `BrunoCLI.discoverCollections` (bruno-cli module), working over an
  explicit directory-tree model `FsTree`;
* the regex-based block extraction used by `BrunoCLI.getRequestDetails`
  (the repeated pattern `label\s*\{([\s\S]*?)\n\}`, and the separate
  `tests` block regex) and the header-line splitting performed on the
  extracted `headers` block;
* `BrunoCLI.parseRunResult` and `BrunoCLI.parseItems` (result
  normalisation over a model of the raw JSON payload);
* `BrunoCLI.parseEnvironmentVariables` (the `vars { ... }` regex and the
  per-line variable regex);
* `BrunoCLI.findRequestFile` (three-stage name lookup);
* the TTL `Cache` class of the performance module, together with the
  discovery-cache wrapper of `discoverCollections`.

Machine integers do not occur on the verified paths; times and sizes are
modelled as `Nat`, the caller-supplied `maxDepth` as `Int` (JS numbers may
be negative there).
-/

/-! ## Directory-tree model and collection discovery -/

/-- A directory as seen through `fs.readdir(dir, { withFileTypes: true })`:
the names of the plain files directly inside it, and its named
subdirectories. -/
inductive FsTree where
  | node (files : List String) (subs : List (String × FsTree))

/-- File entries of a directory node. -/
def FsTree.files : FsTree → List String
  | .node fs _ => fs

/-- Subdirectory entries of a directory node. -/
def FsTree.subs : FsTree → List (String × FsTree)
  | .node _ s => s

/-- `pat` is a leading piece of `s` (character-list level model of both
`String.prototype.startsWith` and the anchoring of the text scans below). -/
def isPrefOf : List Char → List Char → Bool
  | [], _ => true
  | _ :: _, [] => false
  | a :: as, b :: bs => a == b && isPrefOf as bs

/-- The subdirectory filter of `searchDirectory`:
`entry.isDirectory() && !entry.name.startsWith('.') && entry.name !== 'node_modules'`. -/
def childOk (n : String) : Bool := !(isPrefOf ".".toList n.toList) && !(n == "node_modules")

/-- The recursive `searchDirectory(dirPath, currentDepth)` loop of
`BrunoCLI.discoverCollections`.  The source guards each call with
`if (currentDepth > maxSearchDepth) return`, so the recursion depth is
bounded; we carry the remaining allowance
`fuel = maxSearchDepth - currentDepth + 1` (0 when the guard fires)
explicitly.  Paths are lists of directory names relative to the search
root.  The first component collects `collections` (directories whose
entries contain a file named `bruno.json`; such a directory is recorded
and its subdirectories are not searched), the second records every
directory on which `fs.readdir` was performed. -/
def searchGo : Nat → FsTree → List String → List (List String) × List (List String)
  | 0, _, _ => ([], [])
  | f + 1, .node files subs, p =>
    if files.contains "bruno.json" then ([p], [p])
    else
      ((subs.filter (fun e => childOk e.1)).map
          (fun e => (searchGo f e.2 (p ++ [e.1])).1) |>.flatten,
        p :: ((subs.filter (fun e => childOk e.1)).map
          (fun e => (searchGo f e.2 (p ++ [e.1])).2) |>.flatten))

/-- `const maxSearchDepth = Math.min(maxDepth, 10)` together with the
`currentDepth > maxSearchDepth` guard at depth 0: the number of directory
levels that may be read is `maxSearchDepth + 1` when that is positive and
0 otherwise. -/
def depthFuel (maxDepth : Int) : Nat :=
  if maxDepth < 0 then 0 else (min maxDepth 10).toNat + 1

/-- `BrunoCLI.discoverCollections` without the cache layer (the cache is
modelled separately by `discoverWithCache`): the collection paths found
starting from the search root. -/
def discoverCollections (t : FsTree) (maxDepth : Int) : List (List String) :=
  (searchGo (depthFuel maxDepth) t []).1

/-- The directories read (`fs.readdir`) by the same traversal. -/
def discoverReads (t : FsTree) (maxDepth : Int) : List (List String) :=
  (searchGo (depthFuel maxDepth) t []).2

/-- `BrunoCLI.hasCollectionFile`: a directory is a valid collection for
`listRequests` when it directly contains `bruno.json` or `collection.bru`. -/
def hasCollectionFile (t : FsTree) : Bool :=
  t.files.contains "bruno.json" || t.files.contains "collection.bru"

/-- `q` is a strict descendant path of `p`. -/
def isUnder (p q : List String) : Prop := ∃ r, r ≠ [] ∧ q = p ++ r

/-- The directory reached from the root of `t` by following the path has a
file named `bruno.json` among its entries. -/
inductive HasMarkerAt : FsTree → List String → Prop
  | here {files subs} (h : "bruno.json" ∈ files) :
      HasMarkerAt (.node files subs) []
  | there {files subs} {n : String} {st : FsTree} {rest : List String}
      (hmem : (n, st) ∈ subs) (h : HasMarkerAt st rest) :
      HasMarkerAt (.node files subs) (n :: rest)

/-- Well-formed directory tree: sibling directory names are distinct at
every level (true of any real filesystem). -/
inductive WfTree : FsTree → Prop
  | mk {files subs} (hnd : (subs.map Prod.fst).Nodup)
      (hsub : ∀ n st, (n, st) ∈ subs → WfTree st) : WfTree (.node files subs)

theorem searchGo_succ_pos (f : Nat) (files : List String)
    (subs : List (String × FsTree)) (p : List String)
    (hm : files.contains "bruno.json" = true) :
    searchGo (f + 1) (.node files subs) p = ([p], [p]) := by
  show (if files.contains "bruno.json" then _ else _) = _
  rw [hm]
  simp

theorem searchGo_succ_neg (f : Nat) (files : List String)
    (subs : List (String × FsTree)) (p : List String)
    (hm : files.contains "bruno.json" = false) :
    searchGo (f + 1) (.node files subs) p =
      ((subs.filter (fun e => childOk e.1)).map
          (fun e => (searchGo f e.2 (p ++ [e.1])).1) |>.flatten,
        p :: ((subs.filter (fun e => childOk e.1)).map
          (fun e => (searchGo f e.2 (p ++ [e.1])).2) |>.flatten)) := by
  show (if files.contains "bruno.json" then _ else _) = _
  rw [hm]
  simp

theorem searchGo_mem_append (f : Nat) (t : FsTree) (p q : List String)
    (h : q ∈ (searchGo f t p).1 ∨ q ∈ (searchGo f t p).2) : ∃ r, q = p ++ r := by
  induction f generalizing t p q with
  | zero => simp [searchGo] at h
  | succ f ih =>
    obtain ⟨files, subs⟩ := t
    by_cases hm : files.contains "bruno.json" = true
    · rw [searchGo_succ_pos f files subs p hm] at h
      rcases h with h | h <;> simp at h <;> exact ⟨[], by simp [h]⟩
    · rw [searchGo_succ_neg f files subs p (by simpa using hm)] at h
      rcases h with h | h
      · simp only [List.mem_flatten, List.mem_map] at h
        obtain ⟨l, ⟨e, he, rfl⟩, hq⟩ := h
        obtain ⟨r, hr⟩ := ih e.2 (p ++ [e.1]) q (Or.inl hq)
        exact ⟨e.1 :: r, by simp [hr]⟩
      · simp only [List.mem_cons, List.mem_flatten, List.mem_map] at h
        rcases h with rfl | h
        · exact ⟨[], by simp⟩
        · obtain ⟨l, ⟨e, he, rfl⟩, hq⟩ := h
          obtain ⟨r, hr⟩ := ih e.2 (p ++ [e.1]) q (Or.inr hq)
          exact ⟨e.1 :: r, by simp [hr]⟩

theorem searchGo_reads_length (f : Nat) (t : FsTree) (p q : List String)
    (h : q ∈ (searchGo f t p).2) : q.length + 1 ≤ p.length + f := by
  induction f generalizing t p q with
  | zero => simp [searchGo] at h
  | succ f ih =>
    obtain ⟨files, subs⟩ := t
    by_cases hm : files.contains "bruno.json" = true
    · rw [searchGo_succ_pos f files subs p hm] at h
      simp at h; subst h; omega
    · rw [searchGo_succ_neg f files subs p (by simpa using hm)] at h
      simp only [List.mem_cons, List.mem_flatten, List.mem_map] at h
      rcases h with rfl | h
      · omega
      · obtain ⟨l, ⟨e, he, rfl⟩, hq⟩ := h
        have := ih e.2 (p ++ [e.1]) q hq
        simp only [List.length_append, List.length_cons, List.length_nil] at this
        omega

theorem searchGo_root_read (f : Nat) (t : FsTree) (p : List String) (h : 1 ≤ f) :
    p ∈ (searchGo f t p).2 := by
  obtain ⟨f, rfl⟩ : ∃ g, f = g + 1 := ⟨f - 1, by omega⟩
  obtain ⟨files, subs⟩ := t
  by_cases hm : files.contains "bruno.json" = true
  · rw [searchGo_succ_pos f files subs p hm]; simp
  · rw [searchGo_succ_neg f files subs p (by simpa using hm)]; simp

theorem searchGo_collections_read (f : Nat) (t : FsTree) (p q : List String)
    (h : q ∈ (searchGo f t p).1) : q ∈ (searchGo f t p).2 := by
  induction f generalizing t p q with
  | zero => simp [searchGo] at h
  | succ f ih =>
    obtain ⟨files, subs⟩ := t
    by_cases hm : files.contains "bruno.json" = true
    · rw [searchGo_succ_pos f files subs p hm] at h ⊢
      simpa using h
    · rw [searchGo_succ_neg f files subs p (by simpa using hm)] at h ⊢
      simp only [List.mem_flatten, List.mem_map, List.mem_cons] at h ⊢
      obtain ⟨l, ⟨e, he, rfl⟩, hq⟩ := h
      exact Or.inr ⟨_, ⟨e, he, rfl⟩, ih e.2 (p ++ [e.1]) q hq⟩

theorem searchGo_collections_marker (f : Nat) (t : FsTree) (p q : List String)
    (h : q ∈ (searchGo f t p).1) : ∃ r, q = p ++ r ∧ HasMarkerAt t r := by
  induction f generalizing t p q with
  | zero => simp [searchGo] at h
  | succ f ih =>
    obtain ⟨files, subs⟩ := t
    by_cases hm : files.contains "bruno.json" = true
    · rw [searchGo_succ_pos f files subs p hm] at h
      simp at h
      exact ⟨[], by simp [h], HasMarkerAt.here (by simpa using hm)⟩
    · rw [searchGo_succ_neg f files subs p (by simpa using hm)] at h
      simp only [List.mem_flatten, List.mem_map] at h
      obtain ⟨l, ⟨e, he, rfl⟩, hq⟩ := h
      obtain ⟨r, hr, hmk⟩ := ih e.2 (p ++ [e.1]) q hq
      have hesubs : e ∈ subs := (List.mem_filter.mp he).1
      exact ⟨e.1 :: r, by simp [hr],
        @HasMarkerAt.there files subs e.1 e.2 r (by simpa using hesubs) hmk⟩

theorem nodup_keys_eq {α β : Type} {l : List (α × β)}
    (h : (l.map Prod.fst).Nodup) {n : α} {a b : β}
    (ha : (n, a) ∈ l) (hb : (n, b) ∈ l) : a = b := by
  induction l with
  | nil => simp at ha
  | cons x t ih =>
    simp only [List.map_cons, List.nodup_cons] at h
    rcases List.mem_cons.mp ha with h1 | h1 <;> rcases List.mem_cons.mp hb with h2 | h2
    · simpa using congrArg Prod.snd (h1.trans h2.symm)
    · exfalso
      apply h.1
      have hx : x.1 = n := by rw [← h1]
      rw [hx]
      exact List.mem_map_of_mem Prod.fst h2
    · exfalso
      apply h.1
      have hx : x.1 = n := by rw [← h2]
      rw [hx]
      exact List.mem_map_of_mem Prod.fst h1
    · exact ih h.2 h1 h2

theorem searchGo_leaf (f : Nat) (t : FsTree) (p : List String) (hwf : WfTree t)
    (p₁ q : List String) (h₁ : p₁ ∈ (searchGo f t p).1)
    (h₂ : q ∈ (searchGo f t p).2) (hu : isUnder p₁ q) : False := by
  induction f generalizing t p p₁ q with
  | zero => simp [searchGo] at h₁
  | succ f ih =>
    obtain ⟨files, subs⟩ := t
    obtain ⟨r₀, hr₀, hq⟩ := hu
    by_cases hm : files.contains "bruno.json" = true
    · rw [searchGo_succ_pos f files subs p hm] at h₁ h₂
      simp at h₁ h₂
      subst h₁; subst h₂
      have := congrArg List.length hq
      simp at this
      exact hr₀ this
    · rw [searchGo_succ_neg f files subs p (by simpa using hm)] at h₁ h₂
      simp only [List.mem_flatten, List.mem_map, List.mem_cons] at h₁ h₂
      obtain ⟨l, ⟨e, he, rfl⟩, hp₁⟩ := h₁
      obtain ⟨r, hr⟩ := searchGo_mem_append f e.2 (p ++ [e.1]) p₁ (Or.inl hp₁)
      rcases h₂ with rfl | ⟨l', ⟨e', he', rfl⟩, hq'⟩
      · -- the read directory is the current one, but the found root is deeper
        rw [hr] at hq
        have := congrArg List.length hq
        simp at this
      · obtain ⟨r', hr'⟩ := searchGo_mem_append f e'.2 (p ++ [e'.1]) q (Or.inr hq')
        have hcat : e'.1 :: r' = e.1 :: (r ++ r₀) := by
          have hpq : p ++ (e'.1 :: r') = p ++ (e.1 :: (r ++ r₀)) := by
            have h3 : q = p ++ e.1 :: (r ++ r₀) := by
              rw [hq, hr]; simp
            rw [← h3, hr']; simp
          exact List.append_cancel_left hpq
        have hname : e'.1 = e.1 := (List.cons_eq_cons.mp hcat).1
        cases hwf with
        | mk hnd hsub =>
          have heS : (e.1, e.2) ∈ subs := by
            simpa using (List.mem_filter.mp he).1
          have heS' : (e.1, e'.2) ∈ subs := by
            have h6 : (e'.1, e'.2) ∈ subs := by
              simpa using (List.mem_filter.mp he').1
            rw [hname] at h6
            exact h6
          have hst : e.2 = e'.2 := nodup_keys_eq hnd heS heS'
          have hq'' : q ∈ (searchGo f e.2 (p ++ [e.1])).2 := by
            rw [hst, ← hname]; exact hq'
          exact ih e.2 (p ++ [e.1]) (hsub e.1 e.2 heS) p₁ q hp₁ hq'' ⟨r₀, hr₀, hq⟩

/-- The cache layer in front of `BrunoCLI.discoverCollections`:
`PerformanceManager.getCachedCollectionDiscovery(searchPath)` /
`cacheCollectionDiscovery(searchPath, collections)` are keyed by the
search path alone, so for one fixed search path the cache state is a
single optional stored result.  A hit returns the stored result
unchanged; a miss recomputes and stores. -/
def discoverWithCache (t : FsTree) (maxDepth : Int)
    (cache : Option (List (List String))) :
    List (List String) × Option (List (List String)) :=
  match cache with
  | some r => (r, some r)
  | none => (discoverCollections t maxDepth, some (discoverCollections t maxDepth))

/-- Claim C1, counterexample: a negative `maxDepth` is NOT clamped up to 0.
With `maxDepth = -1` the guard `currentDepth > Math.min(maxDepth, 10)`
already fires at depth 0, so the search root is never read even though it
directly contains `bruno.json`; with `maxDepth = 0` (the value the claimed
clamping would produce) the root is read and returned. -/
theorem discoverCollections_negative_depth_cex :
    discoverReads (FsTree.node ["bruno.json"] []) (-1) = []
    ∧ discoverCollections (FsTree.node ["bruno.json"] []) (-1) = []
    ∧ discoverReads (FsTree.node ["bruno.json"] []) 0 = [[]]
    ∧ discoverCollections (FsTree.node ["bruno.json"] []) 0 = [[]] := by
  decide

/-- Claim C1 (amended): `maxDepth` is only capped above at 10, not clamped
below at 0.  For `maxDepth ≥ 0` the root directory at depth 0 is always
examined and no directory whose depth from the search root exceeds
`min(maxDepth, 10)` is ever read; for `maxDepth < 0` no directory at all
(the root included) is read. -/
theorem discoverCollections_depth_bound (t : FsTree) (d : Int) :
    (0 ≤ d → [] ∈ discoverReads t d)
    ∧ (∀ p, p ∈ discoverReads t d → (p.length : Int) ≤ min d 10)
    ∧ (d < 0 → discoverReads t d = []) := by
  refine ⟨?_, ?_, ?_⟩
  · intro hd
    have h1 : 1 ≤ depthFuel d := by
      unfold depthFuel
      rw [if_neg (by omega)]
      omega
    exact searchGo_root_read _ t [] h1
  · intro p hp
    have hlen := searchGo_reads_length (depthFuel d) t [] p hp
    by_cases hd : d < 0
    · unfold depthFuel at hlen
      rw [if_pos hd] at hlen
      simp at hlen
    · unfold depthFuel at hlen
      rw [if_neg hd] at hlen
      simp only [List.length_nil, Nat.zero_add] at hlen
      omega
  · intro hd
    show (searchGo (depthFuel d) t []).2 = []
    unfold depthFuel
    rw [if_pos hd]
    rfl

/-- Witness for `discoverCollections_depth_bound` at a concrete tree and
depth. -/
theorem discoverCollections_depth_bound_witness :
    ([] ∈ discoverReads (FsTree.node [] []) 3)
    ∧ ((([] : List String).length : Int) ≤ min 3 10)
    ∧ (discoverReads (FsTree.node [] []) (-2) = []) :=
  ⟨(discoverCollections_depth_bound (FsTree.node [] []) 3).1 (by decide),
    (discoverCollections_depth_bound (FsTree.node [] []) 3).2.1 []
      ((discoverCollections_depth_bound (FsTree.node [] []) 3).1 (by decide)),
    (discoverCollections_depth_bound (FsTree.node [] []) (-2)).2.2 (by decide)⟩

/-- Claim C4, counterexample: the discovery cache is keyed by the search
path alone, so a second call with a smaller `maxDepth` is served the
result computed under the larger `maxDepth`.  On a tree whose only
collection sits at depth 1, a first call with `maxDepth = 5` caches
`[["a"]]`; the second call with `maxDepth = 0` returns that cached value,
while a from-scratch recomputation with `maxDepth = 0` returns `[]`. -/
theorem discoverWithCache_depth_mismatch_cex :
    (discoverWithCache (FsTree.node [] [("a", FsTree.node ["bruno.json"] [])]) 0
        (discoverWithCache (FsTree.node [] [("a", FsTree.node ["bruno.json"] [])]) 5
          none).2).1 = [["a"]]
    ∧ discoverCollections (FsTree.node [] [("a", FsTree.node ["bruno.json"] [])]) 0 = []
    ∧ (discoverWithCache (FsTree.node [] [("a", FsTree.node ["bruno.json"] [])]) 0
        (discoverWithCache (FsTree.node [] [("a", FsTree.node ["bruno.json"] [])]) 5
          none).2).1
      ≠ discoverCollections (FsTree.node [] [("a", FsTree.node ["bruno.json"] [])]) 0 := by
  decide

/-- Claim C4 (amended): the cached result equals a from-scratch
recomputation only for the arguments under which it was computed: a first
call on an empty cache returns and stores exactly the from-scratch result,
and a repeat call with the same search path and the same `maxDepth` served
from that cache equals the from-scratch recomputation.  (A repeat call
with a different `maxDepth` is served the stored result unchanged, which
the counterexample shows can differ from recomputation.) -/
theorem discoverWithCache_same_args_consistent (t : FsTree) (d : Int) :
    (discoverWithCache t d none).1 = discoverCollections t d
    ∧ (discoverWithCache t d (discoverWithCache t d none).2).1
      = discoverCollections t d := by
  constructor <;> rfl

/-- Claim C5: a collection root found by discovery is a traversal leaf.
In a well-formed directory tree (distinct sibling names), if discovery
returns a directory `p`, then no strict descendant `q` of `p` is ever
read, and none is returned as a collection. -/
theorem discoverCollections_found_root_is_leaf (t : FsTree) (d : Int)
    (hwf : WfTree t) (p q : List String)
    (hp : p ∈ discoverCollections t d) (hq : isUnder p q) :
    q ∉ discoverReads t d ∧ q ∉ discoverCollections t d := by
  constructor
  · intro hread
    exact searchGo_leaf (depthFuel d) t [] hwf p q hp hread hq
  · intro hcol
    exact searchGo_leaf (depthFuel d) t [] hwf p q hp
      (searchGo_collections_read _ t [] q hcol) hq

/-- Witness for `discoverCollections_found_root_is_leaf`: a root with
`bruno.json` whose subdirectory `inner` also holds `bruno.json`; the
inner directory is neither read nor returned. -/
theorem discoverCollections_found_root_is_leaf_witness :
    ["inner"] ∉ discoverReads
        (FsTree.node ["bruno.json"] [("inner", FsTree.node ["bruno.json"] [])]) 5
    ∧ ["inner"] ∉ discoverCollections
        (FsTree.node ["bruno.json"] [("inner", FsTree.node ["bruno.json"] [])]) 5 :=
  discoverCollections_found_root_is_leaf
    (FsTree.node ["bruno.json"] [("inner", FsTree.node ["bruno.json"] [])]) 5
    (WfTree.mk (by decide)
      (by
        intro n st h
        simp at h
        obtain ⟨rfl, rfl⟩ := h
        exact WfTree.mk (by decide) (by intro n st h; simp at h)))
    [] ["inner"] (by decide) ⟨["inner"], by decide, rfl⟩

/-- Claim C10: discovery records a directory as a collection root only
when it (via its path from the search root) directly contains a file
named `bruno.json`, whereas `hasCollectionFile` (used by `listRequests`)
also accepts `collection.bru`.  Consequently a directory marked only by
`collection.bru` is accepted by `listRequests` but is never returned by
`discoverCollections`, whether discovery starts at that directory or at
its parent, for every `maxDepth`. -/
theorem discoverCollections_requires_bruno_json :
    (∀ (t : FsTree) (d : Int) (q : List String),
        q ∈ discoverCollections t d → HasMarkerAt t q)
    ∧ hasCollectionFile (FsTree.node ["collection.bru"] []) = true
    ∧ (∀ d : Int,
        discoverCollections
          (FsTree.node [] [("c", FsTree.node ["collection.bru"] [])]) d = [])
    ∧ (∀ d : Int,
        discoverCollections (FsTree.node ["collection.bru"] []) d = []) := by
  have hmain : ∀ (t : FsTree) (d : Int) (q : List String),
      q ∈ discoverCollections t d → HasMarkerAt t q := by
    intro t d q h
    obtain ⟨r, hr, hmk⟩ := searchGo_collections_marker (depthFuel d) t [] q h
    simpa [hr] using hmk
  refine ⟨hmain, by decide, ?_, ?_⟩
  · intro d
    rw [List.eq_nil_iff_forall_not_mem]
    intro q hq
    have hmk := hmain _ d q hq
    cases hmk with
    | here h => simp at h
    | there hmem h =>
      simp at hmem
      obtain ⟨rfl, rfl⟩ := hmem
      cases h with
      | here h2 => simp at h2
      | there hmem2 h2 => simp at hmem2
  · intro d
    rw [List.eq_nil_iff_forall_not_mem]
    intro q hq
    have hmk := hmain _ d q hq
    cases hmk with
    | here h => simp at h
    | there hmem h => simp at hmem

/-- Witness for `discoverCollections_requires_bruno_json`: the general
membership clause applied at a one-directory tree that does contain
`bruno.json`. -/
theorem discoverCollections_requires_bruno_json_witness :
    HasMarkerAt (FsTree.node ["bruno.json"] []) [] :=
  discoverCollections_requires_bruno_json.1 (FsTree.node ["bruno.json"] []) 5 []
    (by decide)

/-! ## Regex-based block extraction (`getRequestDetails`) -/

/-- The opening brace character. -/
def braceOpen : Char := Char.ofNat 123

/-- The closing brace character. -/
def braceClose : Char := Char.ofNat 125

/-- JS `\s` for the characters that occur in these files
(space, tab, carriage return, newline). -/
def isWsC (c : Char) : Bool := c == ' ' || c == '\t' || c == '\n' || c == '\r'

/-- JS `String.prototype.trim` on a character list. -/
def trimWs (l : List Char) : List Char :=
  ((l.dropWhile isWsC).reverse.dropWhile isWsC).reverse

/-- `pat` occurs somewhere inside `s` (JS `String.prototype.includes`). -/
def hasSub : List Char → List Char → Bool
  | [], pat => pat.isEmpty
  | c :: t, pat => isPrefOf pat (c :: t) || hasSub t pat

/-- JS `String.prototype.split('\n')` on a character list. -/
def splitLinesC : List Char → List (List Char)
  | [] => [[]]
  | c :: rest =>
    if c == '\n' then [] :: splitLinesC rest
    else
      match splitLinesC rest with
      | l :: ls => (c :: l) :: ls
      | [] => [[c]]

/-- The lazy group-and-terminator `([\s\S]*?)\n\}` of the block regexes:
capture up to the first newline immediately followed by a closing brace,
`none` when no such pair occurs after the opening brace. -/
def takeToNlBrace : List Char → Option (List Char)
  | [] => none
  | c :: rest =>
    if c == '\n' then
      match rest with
      | c2 :: _ =>
        if c2 == braceClose then some []
        else (takeToNlBrace rest).map (fun l => c :: l)
      | [] => none
    else (takeToNlBrace rest).map (fun l => c :: l)

/-- The block-extraction regex scheme of `BrunoCLI.getRequestDetails`
(`meta\s*\{([\s\S]*?)\n\}`, `headers\s*\{...`, the seven
`method\s*\{...` regexes and `body:<kind>\s*\{...`): find the leftmost
occurrence of `label` followed by optional whitespace and an opening
brace such that the lazy terminator exists, and return the captured
group; otherwise `none` (the engine restarts one position further on a
failed attempt, and a text without any full match yields no block). -/
def scanBlock (label : List Char) : List Char → Option (List Char)
  | [] => none
  | s@(_ :: rest) =>
    if isPrefOf label s then
      match (s.drop label.length).dropWhile isWsC with
      | c :: inner =>
        if c == braceOpen then
          match takeToNlBrace inner with
          | some cap => some cap
          | none => scanBlock label rest
        else scanBlock label rest
      | [] => scanBlock label rest
    else scanBlock label rest

/-- String-level entry point of the regex-modelled block extraction. -/
def extractBlock (content label : String) : Option String :=
  (scanBlock label.toList content.toList).map (fun l => String.mk l)

/-- The capture-and-terminator `([^}]*)...\}` shared by the `vars` block
regex of `parseEnvironmentVariables` and (effectively, see
`scanTestsBlock`) the `tests` block regex of `getRequestDetails`: the
run of non-closing-brace characters after the opening brace, valid only
when a closing brace follows. -/
def takeToBrace : List Char → Option (List Char)
  | [] => none
  | c :: rest =>
    if c == braceClose then some []
    else (takeToBrace rest).map (fun l => c :: l)

/-- The `tests` block regex of `BrunoCLI.getRequestDetails`,
`tests\s*\{([^}]*(?:\{[^}]*\}[^}]*)*)\}`.  Unlike the other block
regexes it has no `\n` before the terminating brace, so a same-line
closing brace ends the block; and although its repeated group was
written to admit one level of nested braces, that group can never
consume anything: the greedy leading `[^}]*` also matches `{`, so when
the group is first tried the engine is already positioned on a `}` (or
at the end of input), and a successful overall match never backtracks
into it (on terminator failure, shortening `[^}]*` only reaches
alternatives that still demand the missing `}`).  The capture therefore
runs from the opening brace to the first closing brace wherever it
sits, which is what this definition implements. -/
def scanTestsBlock : List Char → Option (List Char)
  | [] => none
  | s@(_ :: rest) =>
    if isPrefOf "tests".toList s then
      match (s.drop 5).dropWhile isWsC with
      | c :: inner =>
        if c == braceOpen then
          match takeToBrace inner with
          | some cap => some cap
          | none => scanTestsBlock rest
        else scanTestsBlock rest
      | [] => scanTestsBlock rest
    else scanTestsBlock rest

/-- String-level entry point for the `tests` block extraction. -/
def extractTestsBlock (content : String) : Option String :=
  (scanTestsBlock content.toList).map (fun l => String.mk l)

/-- Modelled from the spec (Block Extractor, section 4.1): counting
nested brace depth, return the text up to the `}` matching the first
`{`; `none` when the matching brace never arrives. -/
def takeBraceBalanced : Nat → List Char → Option (List Char)
  | _, [] => none
  | depth, c :: rest =>
    if c == braceOpen then
      (takeBraceBalanced (depth + 1) rest).map (fun l => c :: l)
    else if c == braceClose then
      match depth with
      | 0 => some []
      | d + 1 => (takeBraceBalanced d rest).map (fun l => c :: l)
    else (takeBraceBalanced depth rest).map (fun l => c :: l)

/-- Modelled from the spec: the brace-counting analogue of `scanBlock`. -/
def scanBlockSpec (label : List Char) : List Char → Option (List Char)
  | [] => none
  | s@(_ :: rest) =>
    if isPrefOf label s then
      match (s.drop label.length).dropWhile isWsC with
      | c :: inner =>
        if c == braceOpen then
          match takeBraceBalanced 0 inner with
          | some cap => some cap
          | none => scanBlockSpec label rest
        else scanBlockSpec label rest
      | [] => scanBlockSpec label rest
    else scanBlockSpec label rest

/-- Modelled from the spec: string-level brace-counting extraction. -/
def extractBlockSpec (content label : String) : Option String :=
  (scanBlockSpec label.toList content.toList).map (fun l => String.mk l)

/-- JS object assignment `obj[key] = value` over string keys: an
insertion-ordered association list where overwriting keeps the original
position. -/
def assocSet {α : Type} : List (String × α) → String → α → List (String × α)
  | [], k, v => [(k, v)]
  | (k', v') :: t, k, v =>
    if k' == k then (k, v) :: t else (k', v') :: assocSet t k v

/-- Property read `obj[key]`. -/
def assocLookup {α : Type} (l : List (String × α)) (k : String) : Option α :=
  (l.find? (fun e => e.1 == k)).map Prod.snd

/-- One line of the extracted `headers` block:
`colonIndex = line.indexOf(':')`; when `colonIndex > 0` the line yields
`headers[line.substring(0, colonIndex).trim()] =
line.substring(colonIndex + 1).trim()`, otherwise it is skipped. -/
def processHeaderLine (acc : List (String × String)) (line : List Char) :
    List (String × String) :=
  match line.findIdx? (fun c => c == ':') with
  | some ci =>
    if 0 < ci then
      assocSet acc (String.mk (trimWs (line.take ci)))
        (String.mk (trimWs (line.drop (ci + 1))))
    else acc
  | none => acc

/-- The `headers` step of `BrunoCLI.getRequestDetails`: extract the
`headers` block, split it into lines, keep the non-blank ones, and fold
the per-line colon split. -/
def parseHeadersBlock (content : String) : List (String × String) :=
  match scanBlock "headers".toList content.toList with
  | none => []
  | some inner =>
    ((splitLinesC inner).filter (fun l => !(trimWs l).isEmpty)).foldl
      processHeaderLine []

theorem scanBlock_none_of_no_label (l : List Char) (s : List Char)
    (h : hasSub s l = false) : scanBlock l s = none := by
  induction s with
  | nil => rfl
  | cons c t ih =>
    rw [hasSub] at h
    simp only [Bool.or_eq_false_iff] at h
    show (if isPrefOf l (c :: t) then _ else scanBlock l t) = none
    rw [h.1]
    simp only [Bool.false_eq_true, if_false]
    exact ih h.2

theorem scanTestsBlock_none_of_no_label (s : List Char)
    (h : hasSub s "tests".toList = false) : scanTestsBlock s = none := by
  induction s with
  | nil => rfl
  | cons c t ih =>
    rw [hasSub] at h
    simp only [Bool.or_eq_false_iff] at h
    show (if isPrefOf "tests".toList (c :: t) then _ else scanTestsBlock t) = none
    rw [h.1]
    simp only [Bool.false_eq_true, if_false]
    exact ih h.2

/-- Claim C2, counterexample: block extraction is not brace-counting.
On a `body:json` block holding unindented JSON, the regex capture stops
at the first newline-plus-brace — inside the body — while the
brace-counting extraction of the spec returns the whole body. -/
theorem extractBlock_not_brace_counting_cex :
    extractBlock "body:json \x7b\n\x7b\n\"a\": 1\n\x7d\n\x7d" "body:json"
      = some "\n\x7b\n\"a\": 1"
    ∧ extractBlockSpec "body:json \x7b\n\x7b\n\"a\": 1\n\x7d\n\x7d" "body:json"
      = some "\n\x7b\n\"a\": 1\n\x7d\n"
    ∧ extractBlock "body:json \x7b\n\x7b\n\"a\": 1\n\x7d\n\x7d" "body:json"
      ≠ extractBlockSpec "body:json \x7b\n\x7b\n\"a\": 1\n\x7d\n\x7d" "body:json" := by
  decide

/-- Claim C2 (amended): extraction is regex-based, never brace-counting,
under two schemes.  For `meta`, the seven method blocks, `headers` and
`body:<kind>`, the returned text runs from the label's opening brace to
the first newline immediately followed by a closing brace, so a body
whose inner braces never start a line (e.g. conventionally indented
JSON) is returned in full, braces included.  For `tests`, the capture
runs to the first closing brace wherever it sits: a same-line closing
brace terminates the block, and an inner closing brace cuts it short
(the nested-brace alternative written into the tests regex never takes
effect, its greedy `[^}]*` prefix also consuming opening braces).
Under both schemes a missing label, and equally a missing terminator,
make the block absent (`none`) rather than an error. -/
theorem extractBlock_regex_behaviour :
    (∀ s l : String, hasSub s.toList l.toList = false → extractBlock s l = none)
    ∧ extractBlock "body:json \x7b\n  \x7b\n  \"a\": 1\n  \x7d\n\x7d" "body:json"
      = some "\n  \x7b\n  \"a\": 1\n  \x7d"
    ∧ extractBlock "body:json \x7b \"a\": 1 \x7d" "body:json" = none
    ∧ (∀ s : String, hasSub s.toList "tests".toList = false →
        extractTestsBlock s = none)
    ∧ extractTestsBlock "tests \x7b test(\"x\") \x7d" = some " test(\"x\") "
    ∧ extractTestsBlock "tests \x7b a \x7b b \x7d c \x7d" = some " a \x7b b "
    ∧ extractTestsBlock "tests \x7b no closing" = none := by
  refine ⟨?_, by decide, by decide, ?_, by decide, by decide, by decide⟩
  · intro s l h
    unfold extractBlock
    rw [scanBlock_none_of_no_label l.toList s.toList h]
    rfl
  · intro s h
    unfold extractTestsBlock
    rw [scanTestsBlock_none_of_no_label s.toList h]
    rfl

/-- Witness for `extractBlock_regex_behaviour`: texts not containing the
respective labels yield absent blocks through both general clauses. -/
theorem extractBlock_regex_behaviour_witness :
    extractBlock "tests \x7b \x7d" "headers" = none
    ∧ extractTestsBlock "headers \x7b \x7d" = none :=
  ⟨extractBlock_regex_behaviour.1 "tests \x7b \x7d" "headers" (by decide),
    extractBlock_regex_behaviour.2.2.2.1 "headers \x7b \x7d" (by decide)⟩

/-- Claim C6, counterexample: with the block written exactly as
`headers { A: 1\nB: 2 }` the closing brace does not immediately follow a
newline, so `headers\s*\{([\s\S]*?)\n\}` finds no match and the parsed
headers map is empty instead of holding the two claimed entries. -/
theorem parseHeadersBlock_same_line_brace_cex :
    parseHeadersBlock "headers \x7b A: 1\nB: 2 \x7d" = [] := by
  decide

/-- Claim C6 (amended): the headers block is recognised only when its
closing brace immediately follows a newline.  For text containing
`headers { A: 1\nB: 2\n}` the parsed map holds exactly `A ↦ "1"` and
`B ↦ "2"`; within a recognised block every non-blank line is split at
its first colon (which must not sit at index 0) into trimmed key and
value, and a line without any colon is skipped without error. -/
theorem parseHeadersBlock_amended :
    parseHeadersBlock "headers \x7b A: 1\nB: 2\n\x7d" = [("A", "1"), ("B", "2")]
    ∧ (∀ (acc : List (String × String)) (line : List Char),
        line.findIdx? (fun c => c == ':') = none →
        processHeaderLine acc line = acc) := by
  refine ⟨by decide, ?_⟩
  intro acc line h
  simp [processHeaderLine, h]

/-- Witness for `parseHeadersBlock_amended`: a colon-free line leaves the
headers object untouched. -/
theorem parseHeadersBlock_amended_witness :
    processHeaderLine [] "no colon here".toList = [] :=
  parseHeadersBlock_amended.2 [] "no colon here".toList (by decide)

/-! ## Environment variable parsing (`parseEnvironmentVariables`) -/

/-- The `vars` block regex `/vars\s*\{([^}]*)\}/s` of
`BrunoCLI.parseEnvironmentVariables`: leftmost occurrence of `vars`,
optional whitespace, opening brace, then everything up to the first
closing brace (which must exist). -/
def scanVars : List Char → Option (List Char)
  | [] => none
  | s@(_ :: rest) =>
    if isPrefOf "vars".toList s then
      match (s.drop 4).dropWhile isWsC with
      | c :: inner =>
        if c == braceOpen then
          match takeToBrace inner with
          | some cap => some cap
          | none => scanVars rest
        else scanVars rest
      | [] => scanVars rest
    else scanVars rest

/-- First character of the identifier class `[a-zA-Z_]`. -/
def isIdentStart (c : Char) : Bool :=
  ('a' ≤ c && c ≤ 'z') || ('A' ≤ c && c ≤ 'Z') || c == '_'

/-- Continuation characters of the identifier class `[a-zA-Z0-9_]`. -/
def isIdentChar (c : Char) : Bool :=
  isIdentStart c || ('0' ≤ c && c ≤ '9')

/-- One line against the variable regex
`/^\s*([a-zA-Z_][a-zA-Z0-9_]*)\s*:\s*(.+?)\s*$/gm`: leading whitespace,
an identifier, optional whitespace, a colon, then at least one further
character; the greedy `\s*` before the lazy value group and the `\s*$`
after it strip the surrounding whitespace — except that when everything
after the colon is whitespace, backtracking hands the final whitespace
character to the value group. -/
def matchVarLine (line : List Char) : Option (String × String) :=
  match line.dropWhile isWsC with
  | [] => none
  | c :: rest =>
    if isIdentStart c then
      let identRest := rest.takeWhile isIdentChar
      match (rest.drop identRest.length).dropWhile isWsC with
      | c2 :: v =>
        if c2 == ':' then
          match trimWs v with
          | [] =>
            match v.reverse with
            | [] => none
            | cl :: _ => some (String.mk (c :: identRest), String.mk [cl])
          | core => some (String.mk (c :: identRest), String.mk core)
        else none
      | [] => none
    else none

/-- One matched line updates the object: `variables[key] = value`. -/
def envStep (acc : List (String × String)) (line : List Char) :
    List (String × String) :=
  match matchVarLine line with
  | some kv => assocSet acc kv.1 kv.2
  | none => acc

/-- `BrunoCLI.parseEnvironmentVariables`: extract the `vars` block (no
match yields an empty map) and run the per-line variable regex over its
content, later assignments overwriting earlier ones. -/
def parseEnvironmentVariables (content : String) : List (String × String) :=
  match scanVars content.toList with
  | none => []
  | some block => (splitLinesC block).foldl envStep []

theorem assocLookup_assocSet {α : Type} (l : List (String × α)) (k : String)
    (v : α) (k' : String) :
    assocLookup (assocSet l k v) k'
      = if k' = k then some v else assocLookup l k' := by
  induction l with
  | nil =>
    by_cases h : k' = k
    · subst h; simp [assocSet, assocLookup]
    · have hb : (k == k') = false := beq_eq_false_iff_ne.mpr (Ne.symm h)
      simp [assocSet, assocLookup, List.find?, hb, h]
  | cons x t ih =>
    by_cases hx : x.1 = k
    · have hx' : (x.1 == k) = true := by simpa using hx
      by_cases h : k' = k
      · subst h
        simp [assocSet, hx', assocLookup, List.find?]
      · have hb : (k == k') = false := beq_eq_false_iff_ne.mpr (Ne.symm h)
        have hxk' : (x.1 == k') = false := by
          rw [hx]; exact hb
        simp [assocSet, hx', assocLookup, List.find?, hb, hxk', h]
    · have hx' : (x.1 == k) = false := beq_eq_false_iff_ne.mpr hx
      simp only [assocSet, hx', Bool.false_eq_true, if_false]
      by_cases hk : x.1 = k'
      · have hxk' : (x.1 == k') = true := by simpa using hk
        have h : ¬ (k' = k) := fun hh => hx (hk.trans hh)
        simp [assocLookup, List.find?, hxk', h]
      · have hxk' : (x.1 == k') = false := beq_eq_false_iff_ne.mpr hk
        simp only [assocLookup, List.find?, hxk']
        exact ih

theorem envFold_lookup (lines : List (List Char))
    (acc : List (String × String)) (k : String) :
    assocLookup (lines.foldl envStep acc) k
      = (((lines.filterMap matchVarLine).reverse.find?
            (fun e => e.1 == k)).map Prod.snd).or (assocLookup acc k) := by
  induction lines generalizing acc with
  | nil => simp
  | cons l ls ih =>
    rw [List.foldl_cons, ih]
    cases hml : matchVarLine l with
    | none =>
      simp only [List.filterMap_cons, hml, envStep]
    | some kv =>
      simp only [List.filterMap_cons, hml, List.reverse_cons, List.find?_append,
        envStep]
      cases hfind : ((ls.filterMap matchVarLine).reverse.find?
          (fun e => e.1 == k)) with
      | some x => simp [Option.or]
      | none =>
        simp only [Option.map_none, Option.none_or, List.find?]
        rw [assocLookup_assocSet]
        by_cases h : k = kv.1
        · have h' : (kv.1 == k) = true := by simpa using h.symm
          simp [h, h', Option.or]
        · have h' : (kv.1 == k) = false := by simpa using (Ne.symm h)
          simp [h, h', Option.or]

/-- Claim C8: looking up any key in the parsed environment yields the
value of the last line of the `vars` block matching
`identifier : value` with that identifier (later lines win), other
lines contributing nothing; values stay plain strings.  The second and
later conjuncts check the spec's concrete examples, a duplicate key, and
boolean/numeric-looking values staying strings. -/
theorem parseEnvironmentVariables_spec :
    (∀ (content : String) (k : String),
      assocLookup (parseEnvironmentVariables content) k
        = (((splitLinesC ((scanVars content.toList).getD [])).filterMap
              matchVarLine).reverse.find? (fun e => e.1 == k)).map Prod.snd)
    ∧ parseEnvironmentVariables
        "vars \x7b baseUrl: https://x.test\n apiKey: k123 \x7d"
      = [("baseUrl", "https://x.test"), ("apiKey", "k123")]
    ∧ parseEnvironmentVariables "vars \x7ba: 1\na: 2\n\x7d" = [("a", "2")]
    ∧ parseEnvironmentVariables "vars \x7b flag: true\n port: 8080\n\x7d"
      = [("flag", "true"), ("port", "8080")] := by
  refine ⟨?_, by decide, by decide, by decide⟩
  intro content k
  unfold parseEnvironmentVariables
  cases hs : scanVars content.toList with
  | none => rfl
  | some block =>
    rw [envFold_lookup]
    simp [assocLookup]

/-! ## Request lookup (`findRequestFile` / `runRequest`) -/

/-- The fields of a parsed request entry that the lookup uses. -/
structure ReqEntry where
  name : String
  path : String
deriving DecidableEq

/-- ASCII model of `String.prototype.toLowerCase` character step. -/
def lowerChar (c : Char) : Char :=
  if 'A' ≤ c && c ≤ 'Z' then Char.ofNat (c.toNat + 32) else c

/-- ASCII model of `String.prototype.toLowerCase`. -/
def lowerStr (s : String) : String := String.mk (s.toList.map lowerChar)

/-- JS `String.prototype.includes`. -/
def strIncludes (s sub : String) : Bool := hasSub s.toList sub.toList

/-- `BrunoCLI.findRequestFile`: exact name match first, then
case-insensitive equality, then the first request whose name contains
the requested string; the matched request's file path, or `null`. -/
def findRequestFile (rs : List ReqEntry) (q : String) : Option String :=
  (((rs.find? (fun r => r.name == q)).or
      (rs.find? (fun r => lowerStr r.name == lowerStr q))).or
    (rs.find? (fun r => strIncludes r.name q))).map ReqEntry.path

/-- The guard in `BrunoCLI.runRequest` and `BrunoCLI.getRequestDetails`:
`if (!requestFile) throw new Error(...)`. -/
def runRequestThrows (rs : List ReqEntry) (q : String) : Bool :=
  match findRequestFile rs q with
  | none => true
  | some _ => false

/-- Claim C9: the lookup resolves a name in three stages — exact match,
else case-insensitive match, else first substring match — and the
"not found" error of `runRequest`/`getRequestDetails` is raised only
when no parsed request name contains the requested string, so a request
can be run under a strictly partial name. -/
theorem findRequestFile_three_stage (rs : List ReqEntry) (q : String) :
    ((∃ r, r ∈ rs ∧ strIncludes r.name q = true) → findRequestFile rs q ≠ none)
    ∧ (∀ r, rs.find? (fun x => x.name == q) = some r →
        findRequestFile rs q = some r.path)
    ∧ (rs.find? (fun x => x.name == q) = none →
        ∀ r, rs.find? (fun x => lowerStr x.name == lowerStr q) = some r →
        findRequestFile rs q = some r.path)
    ∧ (rs.find? (fun x => x.name == q) = none →
        rs.find? (fun x => lowerStr x.name == lowerStr q) = none →
        ∀ r, rs.find? (fun x => strIncludes x.name q) = some r →
        findRequestFile rs q = some r.path)
    ∧ (runRequestThrows rs q = true → ∀ r, r ∈ rs → strIncludes r.name q = false) := by
  refine ⟨?_, ?_, ?_, ?_, ?_⟩
  · rintro ⟨r, hr, hinc⟩
    cases h1 : rs.find? (fun x => x.name == q) with
    | some r1 => simp [findRequestFile, h1, Option.or]
    | none =>
      cases h2 : rs.find? (fun x => lowerStr x.name == lowerStr q) with
      | some r2 => simp [findRequestFile, h1, h2, Option.or]
      | none =>
        have hsome : (rs.find? (fun x => strIncludes x.name q)).isSome :=
          List.find?_isSome.mpr ⟨r, hr, by simpa using hinc⟩
        obtain ⟨r3, h3⟩ := Option.isSome_iff_exists.mp hsome
        simp [findRequestFile, h1, h2, h3, Option.or]
  · intro r h
    simp [findRequestFile, h, Option.or]
  · intro h1 r h2
    simp [findRequestFile, h1, h2, Option.or]
  · intro h1 h2 r h3
    simp [findRequestFile, h1, h2, h3, Option.or]
  · intro hthrow r hr
    have hnone : findRequestFile rs q = none := by
      cases hf : findRequestFile rs q with
      | none => rfl
      | some p => rw [runRequestThrows, hf] at hthrow; simp at hthrow
    rw [findRequestFile, Option.map_eq_none', Option.or_eq_none] at hnone
    have h3 := (List.find?_eq_none.mp hnone.2) r hr
    simpa using h3

/-- Witness for `findRequestFile_three_stage`: a strictly partial name
resolves to the containing request's path, and the existence hypothesis
of the first clause is discharged concretely. -/
theorem findRequestFile_three_stage_witness :
    findRequestFile
        [ReqEntry.mk "Get Users" "u.bru", ReqEntry.mk "Create User" "c.bru"]
        "ate Us"
      = some "c.bru"
    ∧ findRequestFile
        [ReqEntry.mk "Get Users" "u.bru", ReqEntry.mk "Create User" "c.bru"]
        "ate Us"
      ≠ none :=
  ⟨(findRequestFile_three_stage
      [ReqEntry.mk "Get Users" "u.bru", ReqEntry.mk "Create User" "c.bru"]
      "ate Us").2.2.2.1 (by decide) (by decide)
      (ReqEntry.mk "Create User" "c.bru") (by decide),
    (findRequestFile_three_stage
      [ReqEntry.mk "Get Users" "u.bru", ReqEntry.mk "Create User" "c.bru"]
      "ate Us").1 ⟨ReqEntry.mk "Create User" "c.bru", by decide, by decide⟩⟩

/-! ## TTL cache (`Cache` class of the performance module) -/

/-- `CacheEntry<T>`: `{ data, timestamp, hits }`. -/
structure CacheEntryM (V : Type) where
  data : V
  timestamp : Nat
  hits : Nat
deriving DecidableEq

/-- The `Cache` class state: a `Map` (insertion-ordered, unique string
keys, modelled with the same association-list operations as JS objects)
plus the namespace TTL in milliseconds. -/
structure CacheM (V : Type) where
  entries : List (String × CacheEntryM V)
  ttl : Nat
deriving DecidableEq

/-- `set(key, value)`: store a fresh entry with the current timestamp
and `hits: 0`. -/
def cacheSet {V : Type} (c : CacheM V) (k : String) (v : V) (now : Nat) :
    CacheM V :=
  { c with entries := assocSet c.entries k (CacheEntryM.mk v now 0) }

/-- `Map.delete(key)`. -/
def eraseKey {V : Type} (l : List (String × CacheEntryM V)) (k : String) :
    List (String × CacheEntryM V) :=
  l.filter (fun e => !(e.1 == k))

/-- `entry.hits++` on the entry under `key`. -/
def bumpHits {V : Type} (l : List (String × CacheEntryM V)) (k : String) :
    List (String × CacheEntryM V) :=
  l.map (fun e =>
    if e.1 == k then (e.1, CacheEntryM.mk e.2.data e.2.timestamp (e.2.hits + 1))
    else e)

/-- `get(key)` at the current time: a missing key yields `null`; an
entry with `now - entry.timestamp > this.ttl` is deleted and yields
`null`; otherwise its hit counter is bumped and its data returned. -/
def cacheGet {V : Type} (c : CacheM V) (k : String) (now : Nat) :
    Option V × CacheM V :=
  match assocLookup c.entries k with
  | none => (none, c)
  | some e =>
    if c.ttl < now - e.timestamp then
      (none, { c with entries := eraseKey c.entries k })
    else
      (some e.data, { c with entries := bumpHits c.entries k })

/-- The private lazy sweep `cleanup()`: drop every entry older than the
TTL. -/
def cacheCleanup {V : Type} (c : CacheM V) (now : Nat) : CacheM V :=
  { c with entries := c.entries.filter (fun e => !(c.ttl < now - e.2.timestamp)) }

/-- The record returned by `getStats()`. -/
structure CacheStatsM where
  size : Nat
  totalHits : Nat
  keys : List String
deriving DecidableEq

/-- `getStats()`: sweep expired entries, then report the size, the total
hit count and the key list of what survives. -/
def cacheStats {V : Type} (c : CacheM V) (now : Nat) : CacheStatsM × CacheM V :=
  (CacheStatsM.mk (cacheCleanup c now).entries.length
    ((cacheCleanup c now).entries.foldl (fun a e => a + e.2.hits) 0)
    ((cacheCleanup c now).entries.map Prod.fst), cacheCleanup c now)

theorem eraseKey_no_key {V : Type} (l : List (String × CacheEntryM V))
    (k : String) : ∀ e ∈ eraseKey l k, (e.1 == k) = false := by
  intro e he
  have := (List.mem_filter.mp he).2
  simpa using this

/-- Claim C7: a `get` performed within the TTL of a `set` returns the
stored value; once more than the TTL has elapsed since the `set`, `get`
returns absence, and any subsequent `stats()` reports a key list without
the key and a size equal to that key list's length. -/
theorem cache_set_get_ttl {V : Type} (c : CacheM V) (k : String) (v : V)
    (t₁ t₂ : Nat) (h12 : t₁ ≤ t₂) :
    (t₂ - t₁ ≤ c.ttl → (cacheGet (cacheSet c k v t₁) k t₂).1 = some v)
    ∧ (c.ttl < t₂ - t₁ →
        (cacheGet (cacheSet c k v t₁) k t₂).1 = none
        ∧ ∀ t₃ : Nat,
          k ∉ (cacheStats (cacheGet (cacheSet c k v t₁) k t₂).2 t₃).1.keys
          ∧ (cacheStats (cacheGet (cacheSet c k v t₁) k t₂).2 t₃).1.size
            = (cacheStats (cacheGet (cacheSet c k v t₁) k t₂).2 t₃).1.keys.length) := by
  have hlook : assocLookup (cacheSet c k v t₁).entries k
      = some (CacheEntryM.mk v t₁ 0) := by
    show assocLookup (assocSet c.entries k (CacheEntryM.mk v t₁ 0)) k = _
    rw [assocLookup_assocSet]
    simp
  constructor
  · intro hle
    unfold cacheGet
    rw [hlook]
    have hcond : ¬ (c.ttl < t₂ - t₁) := by omega
    simp [cacheSet, hcond]
  · intro hgt
    have hcond : c.ttl < t₂ - t₁ := by omega
    have hget : cacheGet (cacheSet c k v t₁) k t₂
        = (none, CacheM.mk
            (eraseKey (assocSet c.entries k (CacheEntryM.mk v t₁ 0)) k) c.ttl) := by
      unfold cacheGet
      rw [hlook]
      simp [cacheSet, hcond]
    refine ⟨by rw [hget], ?_⟩
    intro t₃
    rw [hget]
    constructor
    · intro hk
      simp only [cacheStats, cacheCleanup, List.mem_map] at hk
      obtain ⟨e, he, hek⟩ := hk
      have heK := eraseKey_no_key
        (assocSet c.entries k (CacheEntryM.mk v t₁ 0)) k e
        (List.mem_filter.mp he).1
      rw [hek] at heK
      simp at heK
    · simp [cacheStats]

/-- Witness for `cache_set_get_ttl` on a concrete cache, key, value and
times on both sides of the TTL. -/
theorem cache_set_get_ttl_witness :
    (cacheGet (cacheSet (CacheM.mk ([] : List (String × CacheEntryM Nat)) 100)
        "a" 7 0) "a" 50).1 = some 7
    ∧ (cacheGet (cacheSet (CacheM.mk ([] : List (String × CacheEntryM Nat)) 100)
        "a" 7 0) "a" 101).1 = none
    ∧ "a" ∉ (cacheStats (cacheGet (cacheSet
        (CacheM.mk ([] : List (String × CacheEntryM Nat)) 100)
        "a" 7 0) "a" 101).2 101).1.keys :=
  ⟨(cache_set_get_ttl (CacheM.mk [] 100) "a" 7 0 50 (by decide)).1 (by decide),
    ((cache_set_get_ttl (CacheM.mk [] 100) "a" 7 0 101 (by decide)).2
      (by decide)).1,
    (((cache_set_get_ttl (CacheM.mk [] 100) "a" 7 0 101 (by decide)).2
      (by decide)).2 101).1⟩

/-! ## Result normalisation (`parseRunResult` / `parseItems`)

The raw JSON payload produced by the external executor is modelled by
record types carrying exactly the fields `parseRunResult` reads; `none`
stands for JS `null`/`undefined`.  JS truthiness (`||` chains) treats
`0` and the empty string as falsy, which `truthyN`/`truthyS` encode. -/

/-- `s` survives a JS truthiness test (`''` is falsy). -/
def truthyS (a : Option String) : Option String :=
  match a with
  | some s => if s = "" then none else some s
  | none => none

/-- `n` survives a JS truthiness test (`0` is falsy). -/
def truthyN (a : Option Nat) : Option Nat :=
  match a with
  | some n => if n = 0 then none else some n
  | none => none

/-- `a || b || 0` over numbers. -/
def aliasNat (a b : Option Nat) : Nat := ((truthyN a).or (truthyN b)).getD 0

/-- Fields of `jsonResult.summary` read by `parseRunResult`. -/
structure RawSummary where
  totalRequests : Option Nat
  total : Option Nat
  passedRequests : Option Nat
  passed : Option Nat
  failedRequests : Option Nat
  failed : Option Nat
  totalDuration : Option Nat
  duration : Option Nat
deriving DecidableEq

/-- Fields of `r.request` read by `parseRunResult`/`parseItems`. -/
structure RawRequest where
  method : Option String
  url : Option String
  headers : Option (List (String × String))
  body : Option String
  data : Option String
deriving DecidableEq

/-- Fields of `r.response` read by `parseRunResult`/`parseItems`. -/
structure RawResponse where
  status : Option Nat
  statusText : Option String
  headers : Option (List (String × String))
  data : Option String
  body : Option String
  responseTime : Option Nat
  time : Option Nat
deriving DecidableEq

/-- Fields of one element of `testResults`/`tests`/`assertions`/
`assertionResults`. -/
structure RawTest where
  description : Option String
  name : Option String
  test : Option String
  status : Option String
  passed : Option Bool
  error : Option String
  message : Option String
deriving DecidableEq

/-- Fields of one element of `jsonResult.results`. -/
structure RawResult where
  suitename : Option String
  name : Option String
  testFilename : Option String
  error : Option String
  request : Option RawRequest
  response : Option RawResponse
  runtime : Option Nat
  testResults : Option (List RawTest)
  tests : Option (List RawTest)
  assertions : Option (List RawTest)
  assertionResults : Option (List RawTest)
deriving DecidableEq

/-- Fields of one element of the alternative `jsonResult.items` shape. -/
structure RawItem where
  name : Option String
  status : Option String
  passed : Option Bool
  response : Option RawResponse
  duration : Option Nat
  request : Option RawRequest
  tests : Option (List RawTest)
deriving DecidableEq

/-- The object-level fields `parseRunResult` reads off `jsonResult`. -/
structure RawPayload where
  summary : Option RawSummary
  results : Option (List RawResult)
  items : Option (List RawItem)
deriving DecidableEq

/-- A parsed JSON value handed to `parseRunResult` (object or array). -/
inductive RawJson where
  | obj (p : RawPayload)
  | arr (l : List RawPayload)
deriving DecidableEq

/-- `summary` of the normalised `BrunoRunResult`. -/
structure OutSummary where
  totalRequests : Nat
  passedRequests : Nat
  failedRequests : Nat
  totalDuration : Nat
deriving DecidableEq

/-- `request` detail of a normalised result entry. -/
structure OutRequest where
  method : Option String
  url : Option String
  headers : Option (List (String × String))
  body : Option String
deriving DecidableEq

/-- `response` detail of a normalised result entry. -/
structure OutResponse where
  status : Option Nat
  statusText : Option String
  headers : Option (List (String × String))
  body : Option String
  responseTime : Option Nat
deriving DecidableEq

/-- One normalised test/assertion outcome. -/
structure OutAssertion where
  name : Option String
  passed : Bool
  error : Option String
deriving DecidableEq

/-- One normalised result entry. -/
structure OutResult where
  name : String
  passed : Bool
  status : Nat
  duration : Nat
  error : Option String
  request : Option OutRequest
  response : Option OutResponse
  assertions : Option (List OutAssertion)
deriving DecidableEq

/-- The normalised run result (`BrunoRunResult`). -/
structure BrunoRunResult where
  stdout : String
  stderr : String
  exitCode : Int
  summary : Option OutSummary
  results : Option (List OutResult)
deriving DecidableEq

/-- One element of `testResults`/`tests`/`assertions`:
`{ name: t.description || t.name || t.test,
   passed: t.status === 'pass' || t.passed === true,
   error: t.status === 'fail' ? t.error || t.message : undefined }`. -/
def normTest (t : RawTest) : OutAssertion :=
  OutAssertion.mk
    ((truthyS t.description).or ((truthyS t.name).or (truthyS t.test)))
    ((t.status == some "pass") || (t.passed == some true))
    (if t.status == some "fail" then (truthyS t.error).or (truthyS t.message)
      else none)

/-- One element of `assertionResults`:
`{ name: a.description || a.name, ... }` (same `passed`/`error` rules). -/
def normAssertionRes (a : RawTest) : OutAssertion :=
  OutAssertion.mk
    ((truthyS a.description).or (truthyS a.name))
    ((a.status == some "pass") || (a.passed == some true))
    (if a.status == some "fail" then (truthyS a.error).or (truthyS a.message)
      else none)

/-- The element mapping of `jsonResult.results.map(...)` in
`parseRunResult`. -/
def normalizeResult (r : RawResult) : OutResult :=
  let allTests :=
    (match (r.testResults).or ((r.tests).or (r.assertions)) with
      | some l => l.map normTest
      | none => [])
    ++ (r.assertionResults.getD []).map normAssertionRes
  OutResult.mk
    (((truthyS r.suitename).or
        ((truthyS r.name).or (truthyS r.testFilename))).getD "Unknown")
    r.error.isNone
    ((r.response.bind RawResponse.status).getD 0)
    (((truthyN (r.response.bind RawResponse.responseTime)).or
        (truthyN r.runtime)).getD 0)
    r.error
    (r.request.map (fun req => OutRequest.mk req.method req.url req.headers
      ((truthyS req.body).or (truthyS req.data))))
    (r.response.map (fun resp => OutResponse.mk resp.status resp.statusText
      resp.headers ((truthyS resp.data).or (truthyS resp.body))
      resp.responseTime))
    (if allTests.isEmpty then none else some allTests)

/-- One element of `item.tests` inside `parseItems`:
`{ name: t.name || t.test, passed: t.passed || t.status === 'passed',
   error: t.error }`. -/
def normItemTest (t : RawTest) : OutAssertion :=
  OutAssertion.mk
    ((truthyS t.name).or (truthyS t.test))
    ((t.passed == some true) || (t.status == some "passed"))
    t.error

/-- The element mapping of `BrunoCLI.parseItems`. -/
def normalizeItem (it : RawItem) : OutResult :=
  OutResult.mk
    ((truthyS it.name).getD "Unknown")
    ((it.status == some "passed") || !(it.passed == some false))
    ((it.response.bind RawResponse.status).getD 0)
    (it.duration.getD 0)
    none
    (it.request.map (fun req => OutRequest.mk req.method req.url req.headers
      req.body))
    (it.response.map (fun resp => OutResponse.mk resp.status resp.statusText
      resp.headers ((truthyS resp.body).or (truthyS resp.data))
      ((truthyN resp.time).or (truthyN resp.responseTime))))
    (it.tests.map (fun l => l.map normItemTest))

/-- The single-element array unwrap of `parseRunResult`
(`if (Array.isArray(jsonResult) && jsonResult.length > 0) jsonResult =
jsonResult[0]`); an empty array stays truthy but carries none of the
fields read afterwards, a `null` value skips normalisation entirely. -/
def selectPayload : Option RawJson → Option RawPayload
  | none => none
  | some (.obj p) => some p
  | some (.arr (p :: _)) => some p
  | some (.arr []) => some (RawPayload.mk none none none)

/-- `BrunoCLI.parseRunResult`: carry stdout/stderr/exit code through,
copy `summary` (field-wise first-truthy alias chains) when the payload
has one, and normalise `results[]` element-wise — falling back to the
`items[]` shape only when `results` is absent.  The `jsonOutput`
argument stands for `jsonOutput || tryParseJson(result.stdout)`. -/
def parseRunResult (stdout stderr : String) (exitCode : Int)
    (jsonOutput : Option RawJson) : BrunoRunResult :=
  match selectPayload jsonOutput with
  | none => BrunoRunResult.mk stdout stderr exitCode none none
  | some p =>
    BrunoRunResult.mk stdout stderr exitCode
      (p.summary.map (fun s => OutSummary.mk
        (aliasNat s.totalRequests s.total)
        (aliasNat s.passedRequests s.passed)
        (aliasNat s.failedRequests s.failed)
        (aliasNat s.totalDuration s.duration)))
      (match p.results with
        | some rs => some (rs.map normalizeResult)
        | none =>
          match p.items with
          | some its => some (its.map normalizeItem)
          | none => none)

/-- A raw result element with every optional field absent. -/
def emptyRawResult : RawResult :=
  RawResult.mk none none none none none none none none none none none

/-- Claim C3, counterexample: a payload carrying `results[]` but no
`summary` normalises to a result whose `summary` is absent — nothing is
folded over `results` — even though two results are present. -/
theorem parseRunResult_missing_summary_cex :
    (parseRunResult "" "" 0 (some (RawJson.obj (RawPayload.mk none
        (some [emptyRawResult, emptyRawResult]) none)))).summary = none
    ∧ (parseRunResult "" "" 0 (some (RawJson.obj (RawPayload.mk none
        (some [emptyRawResult, emptyRawResult]) none)))).results.map List.length
      = some 2 := by
  decide

/-- Claim C3 (amended): the normaliser copies `summary` from the payload
when the payload has one (field-wise `totalRequests || total || 0`-style
alias chains) and otherwise leaves it absent — it never derives summary
fields from `results`; `results[]` is normalised element-wise, preserving
its length.  Hence `summary.total == results.length` holds only when the
upstream payload already says so. -/
theorem parseRunResult_summary_copied (stdout stderr : String) (ec : Int)
    (p : RawPayload) :
    ((parseRunResult stdout stderr ec (some (RawJson.obj p))).summary.isSome
      = p.summary.isSome)
    ∧ (∀ s, p.summary = some s →
        (parseRunResult stdout stderr ec (some (RawJson.obj p))).summary
          = some (OutSummary.mk (aliasNat s.totalRequests s.total)
              (aliasNat s.passedRequests s.passed)
              (aliasNat s.failedRequests s.failed)
              (aliasNat s.totalDuration s.duration)))
    ∧ (∀ rs, p.results = some rs →
        (parseRunResult stdout stderr ec (some (RawJson.obj p))).results
          = some (rs.map normalizeResult)
        ∧ (rs.map normalizeResult).length = rs.length) := by
  refine ⟨?_, ?_, ?_⟩
  · cases hs : p.summary <;> simp [parseRunResult, selectPayload, hs]
  · intro s hs
    simp [parseRunResult, selectPayload, hs]
  · intro rs hrs
    refine ⟨?_, by simp⟩
    simp [parseRunResult, selectPayload, hrs]

/-- Witness for `parseRunResult_summary_copied` on a payload that does
carry a summary (`totalRequests: 3`) next to a single-element results
array. -/
theorem parseRunResult_summary_copied_witness :
    (parseRunResult "" "" 0 (some (RawJson.obj (RawPayload.mk
        (some (RawSummary.mk (some 3) none none none none none none none))
        (some [emptyRawResult]) none)))).summary
      = some (OutSummary.mk (aliasNat (some 3) none) (aliasNat none none)
          (aliasNat none none) (aliasNat none none))
    ∧ (parseRunResult "" "" 0 (some (RawJson.obj (RawPayload.mk
        (some (RawSummary.mk (some 3) none none none none none none none))
        (some [emptyRawResult]) none)))).results
      = some ([emptyRawResult].map normalizeResult) :=
  ⟨(parseRunResult_summary_copied "" "" 0 (RawPayload.mk
      (some (RawSummary.mk (some 3) none none none none none none none))
      (some [emptyRawResult]) none)).2.1
      (RawSummary.mk (some 3) none none none none none none none) rfl,
    ((parseRunResult_summary_copied "" "" 0 (RawPayload.mk
      (some (RawSummary.mk (some 3) none none none none none none none))
      (some [emptyRawResult]) none)).2.2 [emptyRawResult] rfl).1⟩
